import Mathlib

/-!
Shallow embedding of `mlhep2019/pivot/plotting.py`.

Real-number arithmetic of the numpy code is modelled over `ℚ` (exact
arithmetic); numpy arrays become Lean lists.  The external collaborators
`mutual_information` and `binarize` (imported from `.utils` in the source,
treated as opaque contracts by the specification) are taken as function
parameters.
-/

namespace Plotting

/-- `np.linspace a b n`: `n` evenly spaced points from `a` to `b` inclusive.
For `n = 1` numpy returns `[a]`; here the formula degenerates to `a` as well
because division by zero is zero in `ℚ`. -/
def linspace (a b : ℚ) (n : ℕ) : List ℚ :=
  (List.range n).map (fun i : ℕ => a + (b - a) * (i : ℚ) / ((n : ℚ) - 1))

/-- `np.arange k` for an integer `k` (empty when `k ≤ 0`). -/
def arangeZ (k : ℤ) : List ℚ :=
  (List.range k.toNat).map (fun i : ℕ => (i : ℚ))

/-- `np.max` over an integer vector (numpy raises on empty input; the
`headD 0` seed is only exercised on nonempty vectors in the theorems). -/
def zmaxD (l : List ℤ) : ℤ := l.foldl max (l.headD 0)

/-- `np.min` over a rational vector. -/
def qminD (l : List ℚ) : ℚ := l.foldl min (l.headD 0)

/-- `np.max` over a rational vector. -/
def qmaxD (l : List ℚ) : ℚ := l.foldl max (l.headD 0)

/-- Midpoints of consecutive edges: `(e[1:] + e[:-1]) / 2`. -/
def midpoints (e : List ℚ) : List ℚ :=
  (e.zip e.tail).map (fun p => (p.1 + p.2) / 2)

/-- Bin index assigned by `np.histogram`-style binning with explicit edge
list `edges`: values outside `[edges[0], edges[-1]]` are dropped, each bin
`k` is `[edges[k], edges[k+1])`, and the last bin also includes its right
edge (numpy computes `searchsorted(edges, x, side='right') - 1` and moves
values equal to the last edge down into the last bin). -/
def binidx (edges : List ℚ) (x : ℚ) : Option ℕ :=
  if edges.length < 2 then none
  else if x < edges.getD 0 0 ∨ edges.getD (edges.length - 1) 0 < x then none
  else some (min ((edges.filter (fun e => decide (e ≤ x))).length - 1) (edges.length - 2))

/-- One cell of the 2D count table of `np.histogram2d`. -/
def cell (pairs : List (ℚ × ℚ)) (xe ye : List ℚ) (i j : ℕ) : ℕ :=
  (pairs.filter (fun p => decide (binidx xe p.1 = some i) && decide (binidx ye p.2 = some j))).length

/-- `np.histogram2d x y (bins := (xe, ye))`, as the count table of shape
`(xe.length - 1) × (ye.length - 1)`. -/
def histogram2d (x y : List ℚ) (xe ye : List ℚ) : List (List ℕ) :=
  (List.range (xe.length - 1)).map (fun i =>
    (List.range (ye.length - 1)).map (fun j => cell (x.zip y) xe ye i j))

/-- Column `j` of a count table: `h[:, j]`. -/
def histcol (h : List (List ℕ)) (j : ℕ) : List ℕ :=
  h.map (fun row => row.getD j 0)

/-- Sum of all cells of a count table. -/
def histTotal (h : List (List ℕ)) : ℕ :=
  (h.map (fun row => row.sum)).sum

/- ### Basic lemmas about the numeric helpers -/

theorem linspace_length (a b : ℚ) (n : ℕ) : (linspace a b n).length = n := by
  rw [linspace, List.length_map, List.length_range]

theorem linspace_getD (a b : ℚ) (n k : ℕ) (hk : k < n) (d : ℚ) :
    (linspace a b n).getD k d = a + (b - a) * k / ((n : ℚ) - 1) := by
  have hk' : k < (linspace a b n).length := by rw [linspace_length]; exact hk
  rw [List.getD_eq_getElem _ _ hk']
  simp only [linspace, List.getElem_map, List.getElem_range]

theorem linspace_first (a b : ℚ) (n : ℕ) (hn : 1 ≤ n) (d : ℚ) :
    (linspace a b n).getD 0 d = a := by
  rw [linspace_getD a b n 0 hn d]
  simp

theorem linspace_last (a b : ℚ) (n : ℕ) (hn : 2 ≤ n) (d : ℚ) :
    (linspace a b n).getD (n - 1) d = b := by
  have h1 : n - 1 < n := by omega
  rw [linspace_getD a b n (n - 1) h1 d]
  have hcast : ((n - 1 : ℕ) : ℚ) = (n : ℚ) - 1 := by
    have : (1 : ℕ) ≤ n := by omega
    push_cast [Nat.cast_sub this]
    ring
  have hne : (n : ℚ) - 1 ≠ 0 := by
    have : (2 : ℚ) ≤ (n : ℚ) := by exact_mod_cast hn
    intro h
    nlinarith
  rw [hcast, mul_div_assoc, div_self hne]
  ring

theorem linspace_step (a b : ℚ) (n k : ℕ) (hk : k + 1 < n) (d : ℚ) :
    (linspace a b n).getD (k + 1) d - (linspace a b n).getD k d
      = (b - a) / ((n : ℚ) - 1) := by
  rw [linspace_getD a b n (k + 1) hk d, linspace_getD a b n k (by omega) d]
  push_cast
  ring

theorem linspace_const (a : ℚ) (n : ℕ) (x : ℚ) (hx : x ∈ linspace a a n) : x = a := by
  simp only [linspace, List.mem_map, List.mem_range] at hx
  obtain ⟨i, _, hi⟩ := hx
  simp at hi
  exact hi.symm

/- ### Binning lemmas -/

theorem binidx_isSome (edges : List ℚ) (x : ℚ) (h2 : 2 ≤ edges.length)
    (hlo : edges.getD 0 0 ≤ x) (hhi : x ≤ edges.getD (edges.length - 1) 0) :
    (binidx edges x).isSome = true := by
  rw [binidx, if_neg (by omega), if_neg (by push_neg; exact ⟨hlo, hhi⟩)]
  rfl

theorem binidx_lt (edges : List ℚ) (x : ℚ) (k : ℕ) (h : binidx edges x = some k) :
    k < edges.length - 1 := by
  rw [binidx] at h
  split_ifs at h with h1 h2
  have hk := Option.some.inj h
  have : k ≤ edges.length - 2 := hk ▸ Nat.min_le_right _ _
  omega

theorem binidx_none_of_lt (edges : List ℚ) (x : ℚ) (hx : x < edges.getD 0 0) :
    binidx edges x = none := by
  rw [binidx]
  split_ifs with h1 h2
  · rfl
  · rfl
  · exact absurd (Or.inl hx) h2

/-- Bridge between list sums over `List.range` and `Finset.range` sums. -/
theorem sum_map_range (g : ℕ → ℕ) (n : ℕ) :
    ((List.range n).map g).sum = ∑ i ∈ Finset.range n, g i := by
  induction n with
  | zero => rfl
  | succ m ih =>
      rw [List.range_succ, List.map_append, List.sum_append, Finset.sum_range_succ, ih]
      simp

/-- Counting: summing, over all bins, the number of elements assigned to that
bin recovers the number of elements assigned to any bin at all. -/
theorem sum_filter_some {α : Type} (l : List α) (f : α → Option ℕ) (n : ℕ)
    (h : ∀ a ∈ l, ∀ k, f a = some k → k < n) :
    (∑ i ∈ Finset.range n, (l.filter (fun a => decide (f a = some i))).length)
      = (l.filter (fun a => (f a).isSome)).length := by
  induction l with
  | nil => simp
  | cons a t ih =>
      have ht : ∀ b ∈ t, ∀ k, f b = some k → k < n :=
        fun b hb => h b (List.mem_cons_of_mem a hb)
      cases hfa : f a with
      | none =>
          have hterm : ∀ i, (List.filter (fun x => decide (f x = some i)) (a :: t))
              = List.filter (fun x => decide (f x = some i)) t := by
            intro i; rw [List.filter_cons]; simp [hfa]
          rw [Finset.sum_congr rfl (fun i _ => by rw [hterm i]), ih ht, List.filter_cons]
          simp [hfa]
      | some k =>
          have hk : k < n := h a (List.mem_cons_self a t) k hfa
          have hterm : ∀ i, (List.filter (fun x => decide (f x = some i)) (a :: t)).length
              = ((if k = i then 1 else 0)
                  + (List.filter (fun x => decide (f x = some i)) t).length) := by
            intro i
            rw [List.filter_cons]
            by_cases hki : k = i
            · subst hki; simp [hfa, Nat.add_comm]
            · simp [hfa, hki]
          rw [Finset.sum_congr rfl (fun i _ => hterm i), Finset.sum_add_distrib, ih ht,
            Finset.sum_ite_eq, if_pos (Finset.mem_range.mpr hk), List.filter_cons]
          simp [hfa, Nat.add_comm]

/-- The total count of a 2D histogram is the number of samples falling inside
both edge ranges. -/
theorem histTotal_eq (x y : List ℚ) (xe ye : List ℚ) :
    histTotal (histogram2d x y xe ye)
      = ((x.zip y).filter
          (fun p => (binidx xe p.1).isSome && (binidx ye p.2).isSome)).length := by
  set pairs := x.zip y with hpairs
  rw [histogram2d, histTotal, List.map_map]
  have hcomp : (fun row : List ℕ => row.sum) ∘
      (fun i => (List.range (ye.length - 1)).map (fun j => cell pairs xe ye i j))
      = fun i => ((List.range (ye.length - 1)).map (fun j => cell pairs xe ye i j)).sum := rfl
  rw [hcomp, sum_map_range]
  have hinner : ∀ i,
      ((List.range (ye.length - 1)).map (fun j => cell pairs xe ye i j)).sum
        = ((pairs.filter (fun p => (binidx ye p.2).isSome)).filter
            (fun p => decide (binidx xe p.1 = some i))).length := by
    intro i
    rw [sum_map_range]
    have hcell : ∀ j, cell pairs xe ye i j
        = ((pairs.filter (fun p => decide (binidx xe p.1 = some i))).filter
            (fun p => decide (binidx ye p.2 = some j))).length := by
      intro j
      rw [cell, List.filter_filter]
      congr 1
      apply List.filter_congr
      intro p _
      exact Bool.and_comm _ _
    rw [Finset.sum_congr rfl (fun j _ => hcell j),
      sum_filter_some (pairs.filter (fun p => decide (binidx xe p.1 = some i)))
        (fun p => binidx ye p.2) (ye.length - 1)
        (fun p _ k hk => binidx_lt ye p.2 k hk),
      List.filter_filter, List.filter_filter]
    congr 1
    apply List.filter_congr
    intro p _
    exact Bool.and_comm _ _
  rw [Finset.sum_congr rfl (fun i _ => hinner i),
    sum_filter_some (pairs.filter (fun p => (binidx ye p.2).isSome))
      (fun p => binidx xe p.1) (xe.length - 1)
      (fun p _ k hk => binidx_lt xe p.1 k hk),
    List.filter_filter]

/-- Number of rows of the 2D count table. -/
theorem histogram2d_length (x y : List ℚ) (xe ye : List ℚ) :
    (histogram2d x y xe ye).length = xe.length - 1 := by
  rw [histogram2d, List.length_map, List.length_range]

/- ### `make_grid` -/

/-- `make_grid(data, size)`: per-axis min/max padded outward by 5% of the
range, `size` evenly spaced points per axis, and the flattened meshgrid
(`grid_X.reshape(-1)` / `grid_Y.reshape(-1)` stacked and transposed): all x
for the first y, then all x for the next y, and so on. -/
def make_grid (data : List (ℚ × ℚ)) (size : ℕ) : List ℚ × List ℚ × List (ℚ × ℚ) :=
  let xmin := qminD (data.map Prod.fst)
  let xmax := qmaxD (data.map Prod.fst)
  let ymin := qminD (data.map Prod.snd)
  let ymax := qmaxD (data.map Prod.snd)
  let dx := xmax - xmin
  let dy := ymax - ymin
  let xs := linspace (xmin - (5/100) * dx) (xmax + (5/100) * dx) size
  let ys := linspace (ymin - (5/100) * dy) (ymax + (5/100) * dy) size
  (xs, ys, ys.flatMap (fun yv => xs.map (fun xv => (xv, yv))))

/- ### `draw_response` -/

/-- Row-major chunking of a flat list into `r` rows of width `c`
(the semantics of `np.reshape (r, c)` on a vector of length `r * c`). -/
def chunksRM : ℕ → ℕ → List ℚ → List (List ℚ)
  | 0, _, _ => []
  | r + 1, c, l => l.take c :: chunksRM r c (l.drop c)

/-- `probabilities.reshape(r, c)`: succeeds exactly when the vector length is
`r * c`, failing with numpy's shape-mismatch error otherwise. -/
def reshape (l : List ℚ) (r c : ℕ) : Option (List (List ℚ)) :=
  if l.length = r * c then some (chunksRM r c l) else none

/-- `draw_response(xs, ys, probabilities, data, labels)`: the computational
content is `probabilities.reshape(ys.shape[0], xs.shape[0])`; the remaining
statements are draw calls on the reshaped matrix (`contourf`, two `scatter`
overlays, the 0.5 `contour`), which consume it unchanged. -/
def draw_response (xs ys probabilities : List ℚ)
    (_data : List (ℚ × ℚ)) (_labels : List ℚ) : Option (List (List ℚ)) :=
  reshape probabilities ys.length xs.length

/- ### `nuisance_prediction_hist` -/

/-- A nuisance vector is either integer-typed (`nuisance.dtype.kind == 'i'`)
or continuous. -/
inductive NuisanceVec where
  | intV (vals : List ℤ)
  | floatV (vals : List ℚ)

/-- The sample values of a nuisance vector, as rationals. -/
def nuVals : NuisanceVec → List ℚ
  | .intV vs => vs.map (fun z : ℤ => (z : ℚ))
  | .floatV vs => vs

/-- The effective `nuisance_bins` after the integer-type override
(`nuisance_bins = np.max(nuisance) + 1`). -/
def effectiveNuBins : NuisanceVec → ℕ → ℕ
  | .intV vs, _ => (zmaxD vs + 1).toNat
  | .floatV _, b => b

/-- The nuisance bin edges `nu_bins`: integer mode
`np.arange(nuisance_bins + 1) - 0.5` with the overridden bin count;
continuous mode `np.linspace(min - 1e-3*delta, max + 1e-3*delta,
num=nuisance_bins + 1)`. -/
def nuEdges : NuisanceVec → ℕ → List ℚ
  | .intV vs, _ => (arangeZ (zmaxD vs + 2)).map (fun q => q - 1/2)
  | .floatV vs, b =>
      let lo := qminD vs
      let hi := qmaxD vs
      let d := hi - lo
      linspace (lo - (1/1000) * d) (hi + (1/1000) * d) (b + 1)

/-- One subplot produced by `nuisance_prediction_hist`: its grid position
(`plt.subplot(nuisance_bins, len(predictions), i*len(predictions)+j+1)`
places row `i`, column `j`), the plotted x/y data, and the optional title. -/
structure SubplotCmd where
  row : ℕ
  col : ℕ
  xs : List ℚ
  ys : List ℕ
  title : Option String
  deriving DecidableEq

/-- The model label used in titles: `names[j]`, or `'Model %d' % j`. -/
def modelLabel : Option (List String) → ℕ → String
  | some ns, j => ns.getD j ""
  | none, j => "Model " ++ toString j

/-- `nuisance_prediction_hist(predictions, nuisance, names, nuisance_bins,
prediction_bins)`, as the list of subplots it draws.  The external
`mutual_information` (from `.utils`) and the `'%.2e'` float formatting are
opaque parameters `mi_fn` and `fmt`. -/
def nuisance_prediction_hist (mi_fn : List (List ℕ) → ℚ) (fmt : ℚ → String)
    (predictions : List (List ℚ)) (nuisance : NuisanceVec)
    (names : Option (List String)) (nuisance_bins prediction_bins : ℕ) :
    List SubplotCmd :=
  let nb := effectiveNuBins nuisance nuisance_bins
  let nu_bins := nuEdges nuisance nuisance_bins
  let p_bins := linspace 0 1 prediction_bins
  let hists := predictions.map (fun proba =>
    histogram2d proba (nuVals nuisance) p_bins nu_bins)
  ((List.range predictions.length).map (fun j =>
    (List.range nb).map (fun i =>
      { row := i
        col := j
        xs := midpoints p_bins
        ys := histcol (hists.getD j []) (nb - i - 1)
        title := if i = 0 then
            some (modelLabel names j ++ " (MI=" ++ fmt (mi_fn (hists.getD j [])) ++ ")")
          else none }))).flatten

/- ### `nuisance_metric_plot` -/

/-- `np.where(ls > 0.5, 1, 0)`, elementwise. -/
def binarize01 (x : ℚ) : ℕ := if 1/2 < x then 1 else 0

/-- One step of the accumulation loop `binned[indx[i]].append(v[i])`. -/
def binAppend (acc : List (List ℚ)) (p : ℕ × ℚ) : List (List ℚ) :=
  acc.set p.1 ((acc.getD p.1 []) ++ [p.2])

/-- The loop `for i in range(v.shape[0]): binned[indx[i]].append(v[i])`
over `nbins` initially empty groups. -/
def binPartition (nbins : ℕ) (indx : List ℕ) (vals : List ℚ) : List (List ℚ) :=
  (indx.zip vals).foldl binAppend (List.replicate nbins [])

/-- `labels_binned`: partition the labels by bin index, then binarize each
group. -/
def binnedLabels (nbins : ℕ) (indx : List ℕ) (labels : List ℚ) : List (List ℕ) :=
  (binPartition nbins indx labels).map (fun ls => ls.map binarize01)

/-- The per-bin metric values of one model:
`[metric_fn(ls, pred) for pred, ls in zip(proba_binned, labels_binned)]`. -/
def modelMetrics (metric_fn : List ℕ → List ℚ → ℚ) (nbins : ℕ)
    (indx : List ℕ) (labels : List ℚ) (proba : List ℚ) : List ℚ :=
  ((binPartition nbins indx proba).zip (binnedLabels nbins indx labels)).map
    (fun pl => metric_fn pl.2 pl.1)

/-- One line drawn by `nuisance_metric_plot`. -/
structure MetricLine where
  xs : List ℚ
  ys : List ℚ
  label : Option String
  deriving DecidableEq

/-- The observable output of `nuisance_metric_plot`: the plotted lines and
the `plt.ylim` pair. -/
structure MetricPlot where
  lines : List MetricLine
  ylim : ℚ × ℚ
  deriving DecidableEq

/-- `nuisance_metric_plot(predictions, labels, nuisance, metric_fn,
base_level, names, nuisance_bins)`.  The external adaptive-binning routine
`binarize` (from `.utils`) is an opaque parameter returning the per-sample
bin indices and the bin edge sequence. -/
def nuisance_metric_plot (binarize : List ℚ → ℕ → List ℕ × List ℚ)
    (metric_fn : List ℕ → List ℚ → ℚ)
    (predictions : List (List ℚ)) (labels : List ℚ) (nuisance : List ℚ)
    (base_level : ℚ) (names : Option (List String)) (nuisance_bins : ℕ) :
    MetricPlot :=
  let res := binarize nuisance nuisance_bins
  let indx := res.1
  let nu_bins := res.2
  let nb := nu_bins.length - 1
  let metrics := predictions.map (fun proba =>
    modelMetrics metric_fn nb indx labels proba)
  let m_min := qminD (metrics.map qminD)
  let m_max := qmaxD (metrics.map qmaxD)
  let m_delta := m_max - m_min
  { lines := (List.range metrics.length).map (fun i =>
      { xs := midpoints nu_bins
        ys := metrics.getD i []
        label := names.map (fun ns => ns.getD i "") })
    ylim := (min m_min base_level, m_max + (5/100) * m_delta) }

/- ### Fold-based min/max lemmas -/

theorem le_foldl_max {α : Type} [LinearOrder α] (l : List α) (init : α) :
    init ≤ l.foldl max init := by
  induction l generalizing init with
  | nil => exact le_refl _
  | cons a t ih => exact le_trans (le_max_left init a) (ih (max init a))

theorem mem_le_foldl_max {α : Type} [LinearOrder α] (l : List α) (init : α)
    (x : α) (hx : x ∈ l) : x ≤ l.foldl max init := by
  induction l generalizing init with
  | nil => cases hx
  | cons a t ih =>
      rcases List.mem_cons.mp hx with h | h
      · subst h
        exact le_trans (le_max_right init x) (le_foldl_max t (max init x))
      · exact ih (max init a) h

theorem foldl_max_mem {α : Type} [LinearOrder α] (l : List α) (init : α) :
    l.foldl max init = init ∨ l.foldl max init ∈ l := by
  induction l generalizing init with
  | nil => exact Or.inl rfl
  | cons a t ih =>
      rcases ih (max init a) with h | h
      · rcases max_choice init a with hc | hc
        · exact Or.inl (by rw [List.foldl_cons, h, hc])
        · exact Or.inr (by rw [List.foldl_cons, h, hc]; exact List.mem_cons_self a t)
      · exact Or.inr (List.mem_cons_of_mem a h)

theorem foldl_min_le {α : Type} [LinearOrder α] (l : List α) (init : α) :
    l.foldl min init ≤ init := by
  induction l generalizing init with
  | nil => exact le_refl _
  | cons a t ih => exact le_trans (ih (min init a)) (min_le_left init a)

theorem foldl_min_le_mem {α : Type} [LinearOrder α] (l : List α) (init : α)
    (x : α) (hx : x ∈ l) : l.foldl min init ≤ x := by
  induction l generalizing init with
  | nil => cases hx
  | cons a t ih =>
      rcases List.mem_cons.mp hx with h | h
      · subst h
        exact le_trans (foldl_min_le t (min init x)) (min_le_right init x)
      · exact ih (min init a) h

theorem foldl_min_mem {α : Type} [LinearOrder α] (l : List α) (init : α) :
    l.foldl min init = init ∨ l.foldl min init ∈ l := by
  induction l generalizing init with
  | nil => exact Or.inl rfl
  | cons a t ih =>
      rcases ih (min init a) with h | h
      · rcases min_choice init a with hc | hc
        · exact Or.inl (by rw [List.foldl_cons, h, hc])
        · exact Or.inr (by rw [List.foldl_cons, h, hc]; exact List.mem_cons_self a t)
      · exact Or.inr (List.mem_cons_of_mem a h)

theorem zmaxD_ge (l : List ℤ) (x : ℤ) (hx : x ∈ l) : x ≤ zmaxD l :=
  mem_le_foldl_max l (l.headD 0) x hx

theorem zmaxD_mem (l : List ℤ) (hl : l ≠ []) : zmaxD l ∈ l := by
  rcases foldl_max_mem l (l.headD 0) with h | h
  · rw [zmaxD, h]
    cases l with
    | nil => exact absurd rfl hl
    | cons a t => exact List.mem_cons_self a t
  · exact h

theorem qminD_le (l : List ℚ) (x : ℚ) (hx : x ∈ l) : qminD l ≤ x :=
  foldl_min_le_mem l (l.headD 0) x hx

theorem qminD_mem (l : List ℚ) (hl : l ≠ []) : qminD l ∈ l := by
  rcases foldl_min_mem l (l.headD 0) with h | h
  · rw [qminD, h]
    cases l with
    | nil => exact absurd rfl hl
    | cons a t => exact List.mem_cons_self a t
  · exact h

theorem qmaxD_ge (l : List ℚ) (x : ℚ) (hx : x ∈ l) : x ≤ qmaxD l :=
  mem_le_foldl_max l (l.headD 0) x hx

theorem qmaxD_mem (l : List ℚ) (hl : l ≠ []) : qmaxD l ∈ l := by
  rcases foldl_max_mem l (l.headD 0) with h | h
  · rw [qmaxD, h]
    cases l with
    | nil => exact absurd rfl hl
    | cons a t => exact List.mem_cons_self a t
  · exact h

theorem qminD_const (l : List ℚ) (q : ℚ) (hl : l ≠ []) (h : ∀ x ∈ l, x = q) :
    qminD l = q := by
  rcases foldl_min_mem l (l.headD 0) with hm | hm
  · rw [qminD, hm]
    cases l with
    | nil => exact absurd rfl hl
    | cons a t => exact h a (List.mem_cons_self a t)
  · exact h _ hm

theorem qmaxD_const (l : List ℚ) (q : ℚ) (hl : l ≠ []) (h : ∀ x ∈ l, x = q) :
    qmaxD l = q := by
  rcases foldl_max_mem l (l.headD 0) with hm | hm
  · rw [qmaxD, hm]
    cases l with
    | nil => exact absurd rfl hl
    | cons a t => exact h a (List.mem_cons_self a t)
  · exact h _ hm

/- ### Flatten-indexing lemmas -/

theorem length_flatten_uniform {α : Type} (L : List (List α)) (c : ℕ)
    (h : ∀ l ∈ L, l.length = c) : L.flatten.length = L.length * c := by
  induction L with
  | nil => simp
  | cons l t ih =>
      rw [List.flatten_cons, List.length_append, h l (List.mem_cons_self l t),
        ih (fun x hx => h x (List.mem_cons_of_mem l hx)), List.length_cons]
      ring

theorem flatten_getD {α : Type} (L : List (List α)) (c : ℕ)
    (h : ∀ l ∈ L, l.length = c) (i j : ℕ) (hi : i < L.length) (hj : j < c)
    (d : α) : L.flatten.getD (i * c + j) d = (L.getD i []).getD j d := by
  induction L generalizing i with
  | nil => cases hi
  | cons l t ih =>
      cases i with
      | zero =>
          rw [List.flatten_cons, Nat.zero_mul, Nat.zero_add,
            List.getD_append _ _ _ _ (by rw [h l (List.mem_cons_self l t)]; exact hj)]
          rfl
      | succ i' =>
          have hlen : l.length = c := h l (List.mem_cons_self l t)
          have harith : (i' + 1) * c + j = l.length + (i' * c + j) := by
            rw [hlen]; ring
          rw [List.flatten_cons, harith, List.getD_append_right _ _ _ _ (by omega),
            Nat.add_sub_cancel_left]
          exact ih (fun x hx => h x (List.mem_cons_of_mem l hx)) i'
            (Nat.lt_of_succ_lt_succ (by simpa using hi))

/- ### Reshape lemmas -/

theorem chunksRM_length (r c : ℕ) (l : List ℚ) : (chunksRM r c l).length = r := by
  induction r generalizing l with
  | zero => rfl
  | succ r' ih => rw [chunksRM, List.length_cons, ih]

theorem chunksRM_row_length (r c : ℕ) (l : List ℚ) (h : l.length = r * c) :
    ∀ row ∈ chunksRM r c l, row.length = c := by
  induction r generalizing l with
  | zero => intro row hrow; cases hrow
  | succ r' ih =>
      intro row hrow
      rcases List.mem_cons.mp hrow with hr | hr
      · subst hr
        rw [List.length_take]
        have hc : c ≤ l.length := by
          rw [h]
          calc c = 1 * c := (Nat.one_mul c).symm
            _ ≤ (r' + 1) * c := Nat.mul_le_mul_right c (by omega)
        omega
      · exact ih (l.drop c) (by rw [List.length_drop, h]; ring_nf; omega) row hr

theorem chunksRM_flatten (r c : ℕ) (l : List ℚ) (h : l.length = r * c) :
    (chunksRM r c l).flatten = l := by
  induction r generalizing l with
  | zero =>
      have : l.length = 0 := by rw [h]; ring
      rw [List.length_eq_zero.mp this]
      rfl
  | succ r' ih =>
      rw [chunksRM, List.flatten_cons,
        ih (l.drop c) (by rw [List.length_drop, h]; ring_nf; omega),
        List.take_append_drop]

/- ### Bin-partition lemmas -/

theorem binAppend_getD (acc : List (List ℚ)) (p : ℕ × ℚ) (g : ℕ)
    (hg : g < acc.length) :
    (binAppend acc p).getD g []
      = if p.1 = g then acc.getD g [] ++ [p.2] else acc.getD g [] := by
  by_cases hpg : p.1 = g
  · rw [if_pos hpg, binAppend, hpg,
      List.getD_eq_getElem _ _ (by rw [List.length_set]; exact hg),
      List.getElem_set_self, List.getD_eq_getElem _ _ hg]
  · rw [if_neg hpg, binAppend,
      List.getD_eq_getElem _ _ (by rw [List.length_set]; exact hg),
      List.getElem_set_ne hpg, List.getD_eq_getElem _ _ hg]

theorem foldl_binAppend_length (pairs : List (ℕ × ℚ)) (acc : List (List ℚ)) :
    (pairs.foldl binAppend acc).length = acc.length := by
  induction pairs generalizing acc with
  | nil => rfl
  | cons p t ih => rw [List.foldl_cons, ih, binAppend, List.length_set]

theorem foldl_binAppend_getD (pairs : List (ℕ × ℚ)) (acc : List (List ℚ))
    (g : ℕ) (hg : g < acc.length) :
    (pairs.foldl binAppend acc).getD g []
      = acc.getD g [] ++ (pairs.filter (fun p => decide (p.1 = g))).map Prod.snd := by
  induction pairs generalizing acc with
  | nil => simp
  | cons p t ih =>
      have hg' : g < (binAppend acc p).length := by
        rw [binAppend, List.length_set]; exact hg
      rw [List.foldl_cons, ih (binAppend acc p) hg', binAppend_getD acc p g hg,
        List.filter_cons]
      by_cases hpg : p.1 = g
      · simp [hpg, List.append_assoc]
      · simp [hpg]

theorem binPartition_length (nbins : ℕ) (indx : List ℕ) (vals : List ℚ) :
    (binPartition nbins indx vals).length = nbins := by
  rw [binPartition, foldl_binAppend_length, List.length_replicate]

theorem binPartition_getD (nbins : ℕ) (indx : List ℕ) (vals : List ℚ)
    (g : ℕ) (hg : g < nbins) :
    (binPartition nbins indx vals).getD g []
      = ((indx.zip vals).filter (fun p => decide (p.1 = g))).map Prod.snd := by
  rw [binPartition,
    foldl_binAppend_getD _ _ g (by rw [List.length_replicate]; exact hg)]
  have hrep : (List.replicate nbins ([] : List ℚ)).getD g [] = [] := by
    rw [List.getD_eq_getElem _ _ (by rw [List.length_replicate]; exact hg),
      List.getElem_replicate]
  rw [hrep, List.nil_append]

theorem binnedLabels_length (nbins : ℕ) (indx : List ℕ) (labels : List ℚ) :
    (binnedLabels nbins indx labels).length = nbins := by
  rw [binnedLabels, List.length_map, binPartition_length]

theorem binnedLabels_getD (nbins : ℕ) (indx : List ℕ) (labels : List ℚ)
    (g : ℕ) (hg : g < nbins) :
    (binnedLabels nbins indx labels).getD g []
      = ((indx.zip labels).filter (fun p => decide (p.1 = g))).map
          (fun p => binarize01 p.2) := by
  have hlen : g < (binPartition nbins indx labels).length := by
    rw [binPartition_length]; exact hg
  rw [binnedLabels, List.getD_eq_getElem _ _ (by rw [List.length_map]; exact hlen),
    List.getElem_map, ← List.getD_eq_getElem _ _ hlen,
    binPartition_getD nbins indx labels g hg, List.map_map]
  rfl

theorem modelMetrics_length (metric_fn : List ℕ → List ℚ → ℚ) (nbins : ℕ)
    (indx : List ℕ) (labels proba : List ℚ) :
    (modelMetrics metric_fn nbins indx labels proba).length = nbins := by
  rw [modelMetrics, List.length_map, List.length_zip, binPartition_length,
    binnedLabels_length, min_self]

theorem modelMetrics_getD (metric_fn : List ℕ → List ℚ → ℚ) (nbins : ℕ)
    (indx : List ℕ) (labels proba : List ℚ) (g : ℕ) (hg : g < nbins) (d : ℚ) :
    (modelMetrics metric_fn nbins indx labels proba).getD g d
      = metric_fn ((binnedLabels nbins indx labels).getD g [])
          ((binPartition nbins indx proba).getD g []) := by
  have h1 : g < (binPartition nbins indx proba).length := by
    rw [binPartition_length]; exact hg
  have h2 : g < (binnedLabels nbins indx labels).length := by
    rw [binnedLabels_length]; exact hg
  have hz : g < ((binPartition nbins indx proba).zip
      (binnedLabels nbins indx labels)).length := by
    rw [List.length_zip]; omega
  rw [modelMetrics, List.getD_eq_getElem _ _ (by rw [List.length_map]; exact hz),
    List.getElem_map, List.getElem_zip, ← List.getD_eq_getElem _ ([] : List ℚ) h1,
    ← List.getD_eq_getElem _ ([] : List ℕ) h2]

theorem filter_length_lt {α : Type} (l : List α) (p : α → Bool) (a : α)
    (ha : a ∈ l) (hpa : p a = false) : (l.filter p).length < l.length := by
  induction l with
  | nil => cases ha
  | cons b t ih =>
      rw [List.filter_cons, List.length_cons]
      rcases List.mem_cons.mp ha with h | h
      · subst h
        rw [if_neg (by rw [hpa]; exact Bool.false_ne_true)]
        have := List.length_filter_le p t
        omega
      · by_cases hb : p b = true
        · rw [if_pos hb, List.length_cons]
          exact Nat.succ_lt_succ (ih h)
        · rw [if_neg hb]
          exact Nat.lt_succ_of_lt (ih h)

/- ### Nuisance-edge lemmas -/

theorem nuEdges_int_length (vs : List ℤ) (b : ℕ) (h : 0 ≤ zmaxD vs) :
    (nuEdges (.intV vs) b).length = (zmaxD vs).toNat + 2 := by
  rw [nuEdges, List.length_map, arangeZ, List.length_map, List.length_range]
  omega

theorem nuEdges_int_getD (vs : List ℤ) (b k : ℕ) (hk : k < (zmaxD vs + 2).toNat)
    (d : ℚ) : (nuEdges (.intV vs) b).getD k d = (k : ℚ) - 1 / 2 := by
  have hlen : k < (nuEdges (.intV vs) b).length := by
    rw [nuEdges, List.length_map, arangeZ, List.length_map, List.length_range]
    exact hk
  rw [List.getD_eq_getElem _ _ hlen]
  simp only [nuEdges, arangeZ, List.getElem_map, List.getElem_range]

theorem nuEdges_int_indep (vs : List ℤ) (b b' : ℕ) :
    nuEdges (.intV vs) b = nuEdges (.intV vs) b' := rfl

/- ### Midpoint lemmas -/

theorem midpoints_length (e : List ℚ) : (midpoints e).length = e.length - 1 := by
  rw [midpoints, List.length_map, List.length_zip, List.length_tail]
  omega

theorem midpoints_getD (e : List ℚ) (k : ℕ) (hk : k + 1 < e.length) (d : ℚ) :
    (midpoints e).getD k d = (e.getD k 0 + e.getD (k + 1) 0) / 2 := by
  have hk' : k < (e.zip e.tail).length := by
    rw [List.length_zip, List.length_tail]; omega
  rw [midpoints, List.getD_eq_getElem _ _ (by rw [List.length_map]; exact hk'),
    List.getElem_map, List.getElem_zip, List.getElem_tail,
    List.getD_eq_getElem _ (0 : ℚ) (by omega : k < e.length),
    List.getD_eq_getElem _ (0 : ℚ) hk]

/- ### Claim theorems -/

/-- Claim C2: for every integer-typed nuisance vector,
`nuisance_prediction_hist` derives the nuisance bin count as max value + 1
and the nuisance bin edges as the half-integers −0.5, 0.5, …, max+0.5,
ignoring the `nuisance_bins` parameter; in particular for an integer
nuisance vector with values {0,1,2} it derives 3 bins with edges
[−0.5, 0.5, 1.5, 2.5]. -/
theorem C2_integer_mode_override (ns : List ℤ) (b b' : ℕ) (_hne : ns ≠ [])
    (hmax : 0 ≤ zmaxD ns) :
    nuEdges (.intV ns) b = nuEdges (.intV ns) b'
    ∧ effectiveNuBins (.intV ns) b = (zmaxD ns).toNat + 1
    ∧ (nuEdges (.intV ns) b).length = (zmaxD ns).toNat + 2
    ∧ (∀ k, k < (zmaxD ns).toNat + 2 →
        (nuEdges (.intV ns) b).getD k 0 = (k : ℚ) - 1 / 2)
    ∧ (nuEdges (.intV ns) b).getD ((zmaxD ns).toNat + 1) 0
        = ((zmaxD ns : ℤ) : ℚ) + 1 / 2
    ∧ nuEdges (.intV [0, 1, 2]) b = [-(1 / 2), 1 / 2, 3 / 2, 5 / 2]
    ∧ effectiveNuBins (.intV [0, 1, 2]) b = 3 := by
  refine ⟨rfl, ?_, nuEdges_int_length ns b hmax, ?_, ?_, ?_, ?_⟩
  · rw [effectiveNuBins]
    omega
  · intro k hk
    exact nuEdges_int_getD ns b k (by omega) 0
  · rw [nuEdges_int_getD ns b _ (by omega) 0]
    have h1 : (((zmaxD ns).toNat : ℕ) : ℚ) = ((zmaxD ns : ℤ) : ℚ) := by
      exact_mod_cast congrArg (fun z : ℤ => (z : ℚ)) (Int.toNat_of_nonneg hmax)
    push_cast
    rw [h1]
    ring
  · have hb0 : nuEdges (.intV [0, 1, 2]) b = nuEdges (.intV [0, 1, 2]) 0 := rfl
    have h4 : ((zmaxD [0, 1, 2] + 2).toNat) = 4 := by decide
    rw [hb0]
    show (arangeZ (zmaxD [0, 1, 2] + 2)).map (fun q => q - 1 / 2) = _
    simp only [arangeZ, h4]
    norm_num [List.range_succ]
  · have hb0 : effectiveNuBins (.intV [0, 1, 2]) b
        = effectiveNuBins (.intV [0, 1, 2]) 0 := rfl
    rw [hb0]
    show (zmaxD [0, 1, 2] + 1).toNat = 3
    decide

/-- Claim C6: for every continuous nuisance vector,
`nuisance_prediction_hist` builds `nuisance_bins + 1` equal-width bin edges
spanning from min − 1e-3·range to max + 1e-3·range; in particular for a
nuisance vector spanning [0, 10] the first edge lies below 0 and the last
edge above 10 by exactly 1e-3 × 10. -/
theorem C6_continuous_mode_edges (vs : List ℚ) (b : ℕ) (_hne : vs ≠ [])
    (hb : 1 ≤ b) :
    (nuEdges (.floatV vs) b).length = b + 1
    ∧ (nuEdges (.floatV vs) b).getD 0 0
        = qminD vs - (1 / 1000) * (qmaxD vs - qminD vs)
    ∧ (nuEdges (.floatV vs) b).getD b 0
        = qmaxD vs + (1 / 1000) * (qmaxD vs - qminD vs)
    ∧ (∀ k, k + 1 < b + 1 →
        (nuEdges (.floatV vs) b).getD (k + 1) 0
            - (nuEdges (.floatV vs) b).getD k 0
          = (qmaxD vs - qminD vs) * (1 + 1 / 500) / (b : ℚ))
    ∧ (qminD vs = 0 → qmaxD vs = 10 →
        (nuEdges (.floatV vs) b).getD 0 0 = -(1 / 100)
        ∧ (nuEdges (.floatV vs) b).getD b 0 = 10 + 1 / 100) := by
  have he : nuEdges (.floatV vs) b
      = linspace (qminD vs - (1 / 1000) * (qmaxD vs - qminD vs))
          (qmaxD vs + (1 / 1000) * (qmaxD vs - qminD vs)) (b + 1) := rfl
  have hfirst : (nuEdges (.floatV vs) b).getD 0 0
      = qminD vs - (1 / 1000) * (qmaxD vs - qminD vs) := by
    rw [he]; exact linspace_first _ _ _ (by omega) 0
  have hlast : (nuEdges (.floatV vs) b).getD b 0
      = qmaxD vs + (1 / 1000) * (qmaxD vs - qminD vs) := by
    rw [he]
    have := linspace_last (qminD vs - (1 / 1000) * (qmaxD vs - qminD vs))
      (qmaxD vs + (1 / 1000) * (qmaxD vs - qminD vs)) (b + 1) (by omega) 0
    simpa using this
  refine ⟨by rw [he]; exact linspace_length _ _ _, hfirst, hlast, ?_, ?_⟩
  · intro k hk
    rw [he, linspace_step _ _ _ k hk 0]
    have hbq : ((b : ℚ) + 1) - 1 = (b : ℚ) := by ring
    push_cast
    rw [hbq]
    congr 1
    ring
  · intro hmin hmaxv
    rw [hfirst, hlast, hmin, hmaxv]
    norm_num

/-- Claim C3: the prediction bin edge sequence consists of exactly
`prediction_bins` evenly spaced points spanning [0, 1], so each model's 2D
histogram has `prediction_bins − 1` prediction bins, and each subplot's x
sequence is the `prediction_bins − 1` midpoints of consecutive edges. -/
theorem C3_prediction_edges_off_by_one (pb : ℕ) (hpb : 2 ≤ pb) :
    (linspace 0 1 pb).length = pb
    ∧ (linspace 0 1 pb).getD 0 0 = 0
    ∧ (linspace 0 1 pb).getD (pb - 1) 0 = 1
    ∧ (∀ k, k + 1 < pb →
        (linspace 0 1 pb).getD (k + 1) 0 - (linspace 0 1 pb).getD k 0
          = 1 / ((pb : ℚ) - 1))
    ∧ (∀ proba nu ye, (histogram2d proba nu (linspace 0 1 pb) ye).length
        = pb - 1)
    ∧ (midpoints (linspace 0 1 pb)).length = pb - 1
    ∧ (∀ k, k + 1 < pb → (midpoints (linspace 0 1 pb)).getD k 0
        = ((linspace 0 1 pb).getD k 0 + (linspace 0 1 pb).getD (k + 1) 0) / 2)
    ∧ (∀ mi_fn fmt preds nuv names nb,
        ∀ cmd ∈ nuisance_prediction_hist mi_fn fmt preds nuv names nb pb,
          cmd.xs = midpoints (linspace 0 1 pb)) := by
  refine ⟨linspace_length 0 1 pb, linspace_first 0 1 pb (by omega) 0,
    linspace_last 0 1 pb hpb 0, ?_, ?_, ?_, ?_, ?_⟩
  · intro k hk
    rw [linspace_step 0 1 pb k hk 0]
    norm_num
  · intro proba nu ye
    rw [histogram2d_length, linspace_length]
  · rw [midpoints_length, linspace_length]
  · intro k hk
    exact midpoints_getD (linspace 0 1 pb) k (by rw [linspace_length]; exact hk) 0
  · intro mi_fn fmt preds nuv names nb cmd hcmd
    simp only [nuisance_prediction_hist, List.mem_flatten, List.mem_map,
      List.mem_range] at hcmd
    obtain ⟨inner, ⟨j, hj, hinner⟩, hmem⟩ := hcmd
    subst hinner
    simp only [List.mem_map, List.mem_range] at hmem
    obtain ⟨i, hi, hcmd⟩ := hmem
    subst hcmd
    rfl

theorem make_grid_fst (data : List (ℚ × ℚ)) (size : ℕ) :
    (make_grid data size).1
      = linspace
          (qminD (data.map Prod.fst)
            - (5 / 100) * (qmaxD (data.map Prod.fst) - qminD (data.map Prod.fst)))
          (qmaxD (data.map Prod.fst)
            + (5 / 100) * (qmaxD (data.map Prod.fst) - qminD (data.map Prod.fst)))
          size := rfl

theorem make_grid_snd (data : List (ℚ × ℚ)) (size : ℕ) :
    (make_grid data size).2.1
      = linspace
          (qminD (data.map Prod.snd)
            - (5 / 100) * (qmaxD (data.map Prod.snd) - qminD (data.map Prod.snd)))
          (qmaxD (data.map Prod.snd)
            + (5 / 100) * (qmaxD (data.map Prod.snd) - qminD (data.map Prod.snd)))
          size := rfl

theorem make_grid_grid (data : List (ℚ × ℚ)) (size : ℕ) :
    (make_grid data size).2.2
      = (make_grid data size).2.1.flatMap
          (fun yv => (make_grid data size).1.map (fun xv => (xv, yv))) := rfl

/-- Claim C5: for every nonempty N×2 data matrix and resolution `size`,
`make_grid` returns two axes of exactly `size` evenly spaced points each,
spanning from the axis minimum minus 5% of that axis's range to the axis
maximum plus 5% of that axis's range (degenerating to equal bounds when the
range is zero), and a flattened grid of `size²` coordinate pairs ordered
row-major: all x values for the first y, then all x values for the next y,
and so on. -/
theorem C5_make_grid (data : List (ℚ × ℚ)) (size : ℕ) (_hne : data ≠ [])
    (hs : 2 ≤ size) :
    (make_grid data size).1.length = size
    ∧ (make_grid data size).2.1.length = size
    ∧ (make_grid data size).1.getD 0 0
        = qminD (data.map Prod.fst)
          - (5 / 100) * (qmaxD (data.map Prod.fst) - qminD (data.map Prod.fst))
    ∧ (make_grid data size).1.getD (size - 1) 0
        = qmaxD (data.map Prod.fst)
          + (5 / 100) * (qmaxD (data.map Prod.fst) - qminD (data.map Prod.fst))
    ∧ (make_grid data size).2.1.getD 0 0
        = qminD (data.map Prod.snd)
          - (5 / 100) * (qmaxD (data.map Prod.snd) - qminD (data.map Prod.snd))
    ∧ (make_grid data size).2.1.getD (size - 1) 0
        = qmaxD (data.map Prod.snd)
          + (5 / 100) * (qmaxD (data.map Prod.snd) - qminD (data.map Prod.snd))
    ∧ (∀ k, k + 1 < size →
        (make_grid data size).1.getD (k + 1) 0 - (make_grid data size).1.getD k 0
          = (11 / 10) * (qmaxD (data.map Prod.fst) - qminD (data.map Prod.fst))
              / ((size : ℚ) - 1))
    ∧ (qmaxD (data.map Prod.fst) = qminD (data.map Prod.fst) →
        ∀ x ∈ (make_grid data size).1, x = qminD (data.map Prod.fst))
    ∧ (make_grid data size).2.2.length = size * size
    ∧ (∀ i j, i < size → j < size →
        (make_grid data size).2.2.getD (i * size + j) (0, 0)
          = ((make_grid data size).1.getD j 0, (make_grid data size).2.1.getD i 0)) := by
  have hrows : ∀ l ∈ (make_grid data size).2.1.map
      (fun yv => (make_grid data size).1.map (fun xv => (xv, yv))),
      l.length = size := by
    intro l hl
    obtain ⟨yv, _, hyv⟩ := List.mem_map.mp hl
    rw [← hyv, List.length_map, make_grid_fst, linspace_length]
  refine ⟨by rw [make_grid_fst, linspace_length],
    by rw [make_grid_snd, linspace_length],
    by rw [make_grid_fst]; exact linspace_first _ _ _ (by omega) 0,
    by rw [make_grid_fst]; exact linspace_last _ _ _ hs 0,
    by rw [make_grid_snd]; exact linspace_first _ _ _ (by omega) 0,
    by rw [make_grid_snd]; exact linspace_last _ _ _ hs 0,
    ?_, ?_, ?_, ?_⟩
  · intro k hk
    rw [make_grid_fst, linspace_step _ _ _ k hk 0]
    congr 1
    ring
  · intro hdeg x hx
    rw [make_grid_fst] at hx
    rw [hdeg] at hx
    have ha : qminD (data.map Prod.fst)
        - (5 / 100) * (qminD (data.map Prod.fst) - qminD (data.map Prod.fst))
        = qminD (data.map Prod.fst) := by ring
    have hb : qminD (data.map Prod.fst)
        + (5 / 100) * (qminD (data.map Prod.fst) - qminD (data.map Prod.fst))
        = qminD (data.map Prod.fst) := by ring
    rw [ha, hb] at hx
    exact linspace_const _ _ _ hx
  · rw [make_grid_grid, List.flatMap_def, length_flatten_uniform _ size hrows,
      List.length_map, make_grid_snd, linspace_length]
  · intro i j hi hj
    have hys : i < (make_grid data size).2.1.length := by
      rw [make_grid_snd, linspace_length]; exact hi
    have hxs : j < (make_grid data size).1.length := by
      rw [make_grid_fst, linspace_length]; exact hj
    have hL : i < ((make_grid data size).2.1.map
        (fun yv => (make_grid data size).1.map (fun xv => (xv, yv)))).length := by
      rw [List.length_map]; exact hys
    rw [make_grid_grid, List.flatMap_def,
      flatten_getD _ size hrows i j (by rw [List.length_map]; exact hys) hj (0, 0),
      List.getD_eq_getElem _ _ hL, List.getElem_map]
    have hj' : j < ((make_grid data size).1.map
        (fun xv => (xv, (make_grid data size).2.1[i]))).length := by
      rw [List.length_map]; exact hxs
    rw [List.getD_eq_getElem _ _ hj', List.getElem_map,
      List.getD_eq_getElem _ _ hxs, List.getD_eq_getElem _ _ hys]

/-- Claim C4: `draw_response` succeeds for every probability vector whose
length equals `xs.size * ys.size`, reshaping it row-major into a matrix of
`ys.size` rows by `xs.size` columns that matches the grid construction order
without reordering elements; for every probability vector whose length
differs it fails with a shape-mismatch error. -/
theorem C4_draw_response (xs ys p : List ℚ) (data : List (ℚ × ℚ))
    (labels : List ℚ) :
    (p.length = xs.length * ys.length →
      ∃ M, draw_response xs ys p data labels = some M
        ∧ M.length = ys.length
        ∧ (∀ row ∈ M, row.length = xs.length)
        ∧ M.flatten = p
        ∧ (∀ i j, i < ys.length → j < xs.length →
            (M.getD i []).getD j 0 = p.getD (i * xs.length + j) 0))
    ∧ (p.length ≠ xs.length * ys.length →
        draw_response xs ys p data labels = none) := by
  constructor
  · intro hlen
    have hlen' : p.length = ys.length * xs.length := by rw [hlen]; ring
    refine ⟨chunksRM ys.length xs.length p, ?_, chunksRM_length _ _ _,
      chunksRM_row_length _ _ _ hlen', chunksRM_flatten _ _ _ hlen', ?_⟩
    · rw [draw_response, reshape, if_pos hlen']
    · intro i j hi hj
      have hfl := flatten_getD (chunksRM ys.length xs.length p) xs.length
        (chunksRM_row_length _ _ _ hlen') i j
        (by rw [chunksRM_length]; exact hi) hj 0
      rw [chunksRM_flatten _ _ _ hlen'] at hfl
      exact hfl.symm
  · intro hlen
    rw [draw_response, reshape, if_neg (fun h => hlen (by rw [h, mul_comm]))]

/-- Claim C1: for every call to `nuisance_prediction_hist` in which every
prediction value lies inside [0, 1] and every nuisance value lies inside the
constructed nuisance bin range, the sum of all cells of the 2D histogram
computed for each model equals the number of samples (no samples dropped). -/
theorem C1_histogram_preserves_samples (predictions : List (List ℚ))
    (nuisance : NuisanceVec) (nuisance_bins prediction_bins : ℕ)
    (hpb : 2 ≤ prediction_bins)
    (hedge : 2 ≤ (nuEdges nuisance nuisance_bins).length)
    (hin : ∀ y ∈ nuVals nuisance,
      (nuEdges nuisance nuisance_bins).getD 0 0 ≤ y
      ∧ y ≤ (nuEdges nuisance nuisance_bins).getD
          ((nuEdges nuisance nuisance_bins).length - 1) 0) :
    ∀ proba ∈ predictions, (∀ x ∈ proba, 0 ≤ x ∧ x ≤ 1) →
      proba.length = (nuVals nuisance).length →
      histTotal (histogram2d proba (nuVals nuisance)
        (linspace 0 1 prediction_bins) (nuEdges nuisance nuisance_bins))
        = proba.length := by
  intro proba _ hx hlen
  rw [histTotal_eq]
  have hall : ∀ q ∈ proba.zip (nuVals nuisance),
      ((binidx (linspace 0 1 prediction_bins) q.1).isSome
        && (binidx (nuEdges nuisance nuisance_bins) q.2).isSome) = true := by
    intro q hq
    obtain ⟨hq1, hq2⟩ := List.of_mem_zip hq
    rw [Bool.and_eq_true]
    constructor
    · apply binidx_isSome
      · rw [linspace_length]; exact hpb
      · rw [linspace_first 0 1 prediction_bins (by omega) 0]
        exact (hx q.1 hq1).1
      · rw [linspace_length, linspace_last 0 1 prediction_bins hpb 0]
        exact (hx q.1 hq1).2
    · exact binidx_isSome _ _ hedge (hin q.2 hq2).1 (hin q.2 hq2).2
  rw [List.filter_eq_self.mpr hall, List.length_zip, hlen]
  exact min_self _

/-- Claim C10: for every integer-typed nuisance vector containing at least
one negative value, `nuisance_prediction_hist` constructs bin edges starting
at −0.5, so every sample whose nuisance value is negative falls outside all
bins and is silently excluded from every model's 2D histogram; the histogram
total is then strictly less than the sample count. -/
theorem C10_negative_values_dropped (ns : List ℤ) (proba : List ℚ)
    (b pb : ℕ) (hlen : proba.length = ns.length)
    (hneg : ∃ y ∈ ns, y < 0) (hmax : 0 ≤ zmaxD ns) :
    (nuEdges (.intV ns) b).getD 0 0 = -(1 / 2)
    ∧ (∀ y : ℤ, y ∈ ns → y < 0 →
        binidx (nuEdges (.intV ns) b) (y : ℚ) = none)
    ∧ histTotal (histogram2d proba (nuVals (.intV ns))
        (linspace 0 1 pb) (nuEdges (.intV ns) b)) < ns.length := by
  have hnuv : nuVals (.intV ns) = ns.map (fun z : ℤ => (z : ℚ)) := rfl
  have hfirst : (nuEdges (.intV ns) b).getD 0 0 = -(1 / 2) := by
    rw [nuEdges_int_getD ns b 0 (by omega) 0]
    norm_num
  have hnone : ∀ y : ℤ, y ∈ ns → y < 0 →
      binidx (nuEdges (.intV ns) b) (y : ℚ) = none := by
    intro y hy hylt
    apply binidx_none_of_lt
    rw [hfirst]
    have hy1 : y ≤ -1 := by omega
    have hyq : (y : ℚ) ≤ -1 := by exact_mod_cast hy1
    linarith
  refine ⟨hfirst, hnone, ?_⟩
  rw [histTotal_eq]
  obtain ⟨y, hy, hylt⟩ := hneg
  obtain ⟨i, hi, hiy⟩ := List.mem_iff_getElem.mp hy
  have hply : i < (proba.zip (nuVals (.intV ns))).length := by
    rw [List.length_zip, hnuv, List.length_map, hlen]
    simpa using hi
  have hq2 : ((proba.zip (nuVals (.intV ns))).get ⟨i, hply⟩).2 = (y : ℚ) := by
    rw [List.get_eq_getElem, List.getElem_zip]
    have him : i < (ns.map (fun z : ℤ => (z : ℚ))).length := by
      rw [List.length_map]; exact hi
    show (ns.map (fun z : ℤ => (z : ℚ)))[i] = (y : ℚ)
    rw [List.getElem_map]
    exact_mod_cast congrArg (fun z : ℤ => (z : ℚ)) hiy
  have hpred : ((binidx (linspace 0 1 pb)
        ((proba.zip (nuVals (.intV ns))).get ⟨i, hply⟩).1).isSome
      && (binidx (nuEdges (.intV ns) b)
        ((proba.zip (nuVals (.intV ns))).get ⟨i, hply⟩).2).isSome) = false := by
    rw [hq2, hnone y hy hylt, Option.isSome_none, Bool.and_false]
  have hlt := filter_length_lt (proba.zip (nuVals (.intV ns)))
    (fun q => (binidx (linspace 0 1 pb) q.1).isSome
      && (binidx (nuEdges (.intV ns) b) q.2).isSome)
    ((proba.zip (nuVals (.intV ns))).get ⟨i, hply⟩)
    (List.get_mem _ _ hply) hpred
  rw [List.length_zip, hnuv, List.length_map, hlen] at hlt
  simpa using hlt

/-- Claim C7: in `nuisance_prediction_hist`, the subplot in row `i` of model
`j`'s column plots the histogram column for nuisance bin
`nuisance_bins − i − 1` (nuisance bins displayed in reverse order, last bin
topmost), and only the top row (`i = 0`) of each model's column receives a
title containing the model name (or `Model <index>` when `names` is `None`)
and that model's mutual-information value formatted with `'%.2e'`. -/
theorem C7_subplot_layout (mi_fn : List (List ℕ) → ℚ) (fmt : ℚ → String)
    (predictions : List (List ℚ)) (nuisance : NuisanceVec)
    (names : Option (List String)) (nuisance_bins prediction_bins : ℕ) :
    (∀ j, j < predictions.length →
      ∀ i, i < effectiveNuBins nuisance nuisance_bins →
      ({ row := i
         col := j
         xs := midpoints (linspace 0 1 prediction_bins)
         ys := histcol
           (histogram2d (predictions.getD j []) (nuVals nuisance)
             (linspace 0 1 prediction_bins) (nuEdges nuisance nuisance_bins))
           (effectiveNuBins nuisance nuisance_bins - i - 1)
         title := if i = 0 then
             some (modelLabel names j ++ " (MI=" ++ fmt (mi_fn
               (histogram2d (predictions.getD j []) (nuVals nuisance)
                 (linspace 0 1 prediction_bins)
                 (nuEdges nuisance nuisance_bins))) ++ ")")
           else none } : SubplotCmd)
        ∈ nuisance_prediction_hist mi_fn fmt predictions nuisance names
            nuisance_bins prediction_bins)
    ∧ (∀ cmd ∈ nuisance_prediction_hist mi_fn fmt predictions nuisance names
          nuisance_bins prediction_bins,
        cmd.title.isSome = true ↔ cmd.row = 0) := by
  constructor
  · intro j hj i hi
    have hhist : (predictions.map (fun proba => histogram2d proba
        (nuVals nuisance) (linspace 0 1 prediction_bins)
        (nuEdges nuisance nuisance_bins))).getD j []
        = histogram2d (predictions.getD j []) (nuVals nuisance)
            (linspace 0 1 prediction_bins) (nuEdges nuisance nuisance_bins) := by
      rw [List.getD_eq_getElem _ _ (by rw [List.length_map]; exact hj),
        List.getElem_map, List.getD_eq_getElem _ _ hj]
    simp only [nuisance_prediction_hist]
    rw [List.mem_flatten]
    refine ⟨_, List.mem_map.mpr ⟨j, List.mem_range.mpr hj, rfl⟩, ?_⟩
    apply List.mem_map.mpr
    refine ⟨i, List.mem_range.mpr hi, ?_⟩
    rw [hhist]
  · intro cmd hcmd
    simp only [nuisance_prediction_hist, List.mem_flatten, List.mem_map,
      List.mem_range] at hcmd
    obtain ⟨inner, ⟨j, hj, hinner⟩, hmem⟩ := hcmd
    subst hinner
    simp only [List.mem_map, List.mem_range] at hmem
    obtain ⟨i, hi, hcmd⟩ := hmem
    subst hcmd
    by_cases h0 : i = 0 <;> simp [h0]

/-- The internal `metrics` list of `nuisance_metric_plot`: one list of
per-bin metric values per model. -/
def metricsOf (binarize : List ℚ → ℕ → List ℕ × List ℚ)
    (metric_fn : List ℕ → List ℚ → ℚ) (predictions : List (List ℚ))
    (labels nuisance : List ℚ) (nuisance_bins : ℕ) : List (List ℚ) :=
  predictions.map (fun proba =>
    modelMetrics metric_fn ((binarize nuisance nuisance_bins).2.length - 1)
      (binarize nuisance nuisance_bins).1 labels proba)

theorem nuisance_metric_plot_eq (binarize : List ℚ → ℕ → List ℕ × List ℚ)
    (metric_fn : List ℕ → List ℚ → ℚ) (predictions : List (List ℚ))
    (labels nuisance : List ℚ) (base_level : ℚ)
    (names : Option (List String)) (nuisance_bins : ℕ) :
    nuisance_metric_plot binarize metric_fn predictions labels nuisance
        base_level names nuisance_bins
      = { lines := (List.range (metricsOf binarize metric_fn predictions
            labels nuisance nuisance_bins).length).map (fun k =>
            { xs := midpoints (binarize nuisance nuisance_bins).2
              ys := (metricsOf binarize metric_fn predictions labels nuisance
                  nuisance_bins).getD k []
              label := names.map (fun ns => ns.getD k "") })
          ylim := (min (qminD ((metricsOf binarize metric_fn predictions
              labels nuisance nuisance_bins).map qminD)) base_level,
            qmaxD ((metricsOf binarize metric_fn predictions labels nuisance
                nuisance_bins).map qmaxD)
              + (5 / 100) * (qmaxD ((metricsOf binarize metric_fn predictions
                  labels nuisance nuisance_bins).map qmaxD)
                - qminD ((metricsOf binarize metric_fn predictions labels
                  nuisance nuisance_bins).map qminD))) } := rfl

/-- Claim C8: for every call to `nuisance_metric_plot` in which every bin
receives at least one sample per model, the y-axis limits set are exactly
[min(global metric minimum, base_level), global metric maximum + 0.05 ×
(global metric maximum − global metric minimum)]; in particular, for a
metric function constantly returning 0.7, every model's rendered line is
flat at y = 0.7 and the y-axis upper bound is ≥ 0.7. -/
theorem C8_metric_plot_ylim (binarize : List ℚ → ℕ → List ℕ × List ℚ)
    (metric_fn : List ℕ → List ℚ → ℚ) (predictions : List (List ℚ))
    (labels nuisance : List ℚ) (base_level : ℚ)
    (names : Option (List String)) (nuisance_bins : ℕ)
    (hpreds : predictions ≠ [])
    (hnb : 1 ≤ (binarize nuisance nuisance_bins).2.length - 1)
    (_hpop : ∀ g, g < (binarize nuisance nuisance_bins).2.length - 1 →
      g ∈ (binarize nuisance nuisance_bins).1) :
    ((nuisance_metric_plot binarize metric_fn predictions labels nuisance
        base_level names nuisance_bins).ylim
      = (min (qminD ((metricsOf binarize metric_fn predictions labels
            nuisance nuisance_bins).map qminD)) base_level,
        qmaxD ((metricsOf binarize metric_fn predictions labels nuisance
            nuisance_bins).map qmaxD)
          + (5 / 100) * (qmaxD ((metricsOf binarize metric_fn predictions
              labels nuisance nuisance_bins).map qmaxD)
            - qminD ((metricsOf binarize metric_fn predictions labels
              nuisance nuisance_bins).map qminD))))
    ∧ ((nuisance_metric_plot binarize metric_fn predictions labels nuisance
        base_level names nuisance_bins).ylim.1 ≤ base_level)
    ∧ (∀ proba ∈ predictions, ∀ g,
        g < (binarize nuisance nuisance_bins).2.length - 1 →
        (nuisance_metric_plot binarize metric_fn predictions labels nuisance
            base_level names nuisance_bins).ylim.1
          ≤ (modelMetrics metric_fn
              ((binarize nuisance nuisance_bins).2.length - 1)
              (binarize nuisance nuisance_bins).1 labels proba).getD g 0
        ∧ (modelMetrics metric_fn
              ((binarize nuisance nuisance_bins).2.length - 1)
              (binarize nuisance nuisance_bins).1 labels proba).getD g 0
          ≤ qmaxD ((metricsOf binarize metric_fn predictions labels nuisance
              nuisance_bins).map qmaxD))
    ∧ (metric_fn = (fun _ _ => 7 / 10) →
        (∀ line ∈ (nuisance_metric_plot binarize metric_fn predictions labels
            nuisance base_level names nuisance_bins).lines,
          line.ys = List.replicate
            ((binarize nuisance nuisance_bins).2.length - 1) (7 / 10))
        ∧ (7 / 10 : ℚ) ≤ (nuisance_metric_plot binarize metric_fn predictions
            labels nuisance base_level names nuisance_bins).ylim.2) := by
  have hylim : (nuisance_metric_plot binarize metric_fn predictions labels
      nuisance base_level names nuisance_bins).ylim
      = (min (qminD ((metricsOf binarize metric_fn predictions labels
            nuisance nuisance_bins).map qminD)) base_level,
        qmaxD ((metricsOf binarize metric_fn predictions labels nuisance
            nuisance_bins).map qmaxD)
          + (5 / 100) * (qmaxD ((metricsOf binarize metric_fn predictions
              labels nuisance nuisance_bins).map qmaxD)
            - qminD ((metricsOf binarize metric_fn predictions labels
              nuisance nuisance_bins).map qminD))) := by
    rw [nuisance_metric_plot_eq]
  refine ⟨hylim, ?_, ?_, ?_⟩
  · rw [hylim]
    exact min_le_right _ _
  · intro proba hproba g hg
    have hmem : modelMetrics metric_fn
        ((binarize nuisance nuisance_bins).2.length - 1)
        (binarize nuisance nuisance_bins).1 labels proba
        ∈ metricsOf binarize metric_fn predictions labels nuisance
            nuisance_bins :=
      List.mem_map_of_mem _ hproba
    have hval : (modelMetrics metric_fn
        ((binarize nuisance nuisance_bins).2.length - 1)
        (binarize nuisance nuisance_bins).1 labels proba).getD g 0
        ∈ modelMetrics metric_fn
            ((binarize nuisance nuisance_bins).2.length - 1)
            (binarize nuisance nuisance_bins).1 labels proba := by
      have hg' : g < (modelMetrics metric_fn
          ((binarize nuisance nuisance_bins).2.length - 1)
          (binarize nuisance nuisance_bins).1 labels proba).length := by
        rw [modelMetrics_length]; exact hg
      rw [List.getD_eq_getElem _ _ hg']
      exact List.getElem_mem hg'
    constructor
    · rw [hylim]
      refine le_trans (min_le_left _ _) (le_trans (qminD_le _ _ ?_)
        (qminD_le _ _ hval))
      exact List.mem_map_of_mem qminD hmem
    · exact le_trans (qmaxD_ge _ _ hval)
        (qmaxD_ge _ _ (List.mem_map_of_mem qmaxD hmem))
  · intro hfn
    subst hfn
    have hconst : ∀ proba : List ℚ,
        modelMetrics (fun _ _ => (7 : ℚ) / 10)
          ((binarize nuisance nuisance_bins).2.length - 1)
          (binarize nuisance nuisance_bins).1 labels proba
        = List.replicate ((binarize nuisance nuisance_bins).2.length - 1)
            (7 / 10) := by
      intro proba
      apply List.eq_replicate_iff.mpr
      refine ⟨modelMetrics_length _ _ _ _ _, ?_⟩
      intro v hv
      rw [modelMetrics] at hv
      obtain ⟨pl, _, hpl⟩ := List.mem_map.mp hv
      exact hpl.symm
    have hM : metricsOf binarize (fun _ _ => (7 : ℚ) / 10) predictions labels
        nuisance nuisance_bins
        = predictions.map (fun _ =>
            List.replicate ((binarize nuisance nuisance_bins).2.length - 1)
              (7 / 10)) := by
      rw [metricsOf]
      exact List.map_congr_left (fun proba _ => hconst proba)
    have hrepne : List.replicate ((binarize nuisance nuisance_bins).2.length - 1)
        ((7 : ℚ) / 10) ≠ [] := by
      intro h
      have := congrArg List.length h
      rw [List.length_replicate] at this
      simp at this
      omega
    have hqmax : qmaxD ((metricsOf binarize (fun _ _ => (7 : ℚ) / 10)
        predictions labels nuisance nuisance_bins).map qmaxD) = 7 / 10 := by
      apply qmaxD_const
      · rw [hM, List.map_map]
        intro h
        exact hpreds (List.map_eq_nil_iff.mp h)
      · intro x hx
        rw [hM, List.map_map] at hx
        obtain ⟨proba, _, hproba⟩ := List.mem_map.mp hx
        rw [← hproba]
        show qmaxD (List.replicate _ ((7 : ℚ) / 10)) = 7 / 10
        apply qmaxD_const _ _ hrepne
        intro z hz
        exact (List.mem_replicate.mp hz).2
    have hqmin : qminD ((metricsOf binarize (fun _ _ => (7 : ℚ) / 10)
        predictions labels nuisance nuisance_bins).map qminD) = 7 / 10 := by
      apply qminD_const
      · rw [hM, List.map_map]
        intro h
        exact hpreds (List.map_eq_nil_iff.mp h)
      · intro x hx
        rw [hM, List.map_map] at hx
        obtain ⟨proba, _, hproba⟩ := List.mem_map.mp hx
        rw [← hproba]
        show qminD (List.replicate _ ((7 : ℚ) / 10)) = 7 / 10
        apply qminD_const _ _ hrepne
        intro z hz
        exact (List.mem_replicate.mp hz).2
    constructor
    · intro line hline
      rw [nuisance_metric_plot_eq] at hline
      simp only [List.mem_map, List.mem_range] at hline
      obtain ⟨k, hk, hlk⟩ := hline
      rw [← hlk]
      show (metricsOf binarize (fun _ _ => (7 : ℚ) / 10) predictions labels
          nuisance nuisance_bins).getD k [] = _
      rw [hM]
      rw [metricsOf, List.length_map] at hk
      rw [List.getD_eq_getElem _ _ (by rw [List.length_map]; exact hk),
        List.getElem_map]
    · rw [hylim]
      show (7 : ℚ) / 10 ≤ qmaxD _ + 5 / 100 * (qmaxD _ - qminD _)
      rw [hqmax, hqmin]
      norm_num

/-- Claim C9: in `nuisance_metric_plot`, labels are partitioned into
`len(nu_bins) − 1` groups by `indx` and each group is binarized elementwise
(label > 0.5 ↦ 1, else 0); each model's predictions are partitioned by the
same `indx`, preserving original sample order within each group, and the
metric function is applied exactly once per bin to (binned labels, binned
predictions), yielding exactly one metric value per nuisance bin per
model. -/
theorem C9_metric_partition (binarize : List ℚ → ℕ → List ℕ × List ℚ)
    (metric_fn : List ℕ → List ℚ → ℚ) (predictions : List (List ℚ))
    (labels nuisance : List ℚ) (base_level : ℚ)
    (names : Option (List String)) (nuisance_bins : ℕ)
    (_hidx : ∀ g ∈ (binarize nuisance nuisance_bins).1,
      g < (binarize nuisance nuisance_bins).2.length - 1)
    (_hlen : (binarize nuisance nuisance_bins).1.length = labels.length)
    (_hplen : ∀ proba ∈ predictions, proba.length = labels.length) :
    (binnedLabels ((binarize nuisance nuisance_bins).2.length - 1)
        (binarize nuisance nuisance_bins).1 labels).length
      = (binarize nuisance nuisance_bins).2.length - 1
    ∧ (∀ g, g < (binarize nuisance nuisance_bins).2.length - 1 →
        (binnedLabels ((binarize nuisance nuisance_bins).2.length - 1)
            (binarize nuisance nuisance_bins).1 labels).getD g []
          = (((binarize nuisance nuisance_bins).1.zip labels).filter
              (fun p => decide (p.1 = g))).map (fun p => binarize01 p.2))
    ∧ (∀ proba : List ℚ,
        (binPartition ((binarize nuisance nuisance_bins).2.length - 1)
            (binarize nuisance nuisance_bins).1 proba).length
          = (binarize nuisance nuisance_bins).2.length - 1)
    ∧ (∀ proba : List ℚ, ∀ g,
        g < (binarize nuisance nuisance_bins).2.length - 1 →
        (binPartition ((binarize nuisance nuisance_bins).2.length - 1)
            (binarize nuisance nuisance_bins).1 proba).getD g []
          = (((binarize nuisance nuisance_bins).1.zip proba).filter
              (fun p => decide (p.1 = g))).map Prod.snd)
    ∧ (∀ proba : List ℚ,
        (modelMetrics metric_fn
            ((binarize nuisance nuisance_bins).2.length - 1)
            (binarize nuisance nuisance_bins).1 labels proba).length
          = (binarize nuisance nuisance_bins).2.length - 1)
    ∧ (∀ proba : List ℚ, ∀ g,
        g < (binarize nuisance nuisance_bins).2.length - 1 →
        (modelMetrics metric_fn
            ((binarize nuisance nuisance_bins).2.length - 1)
            (binarize nuisance nuisance_bins).1 labels proba).getD g 0
          = metric_fn
              ((((binarize nuisance nuisance_bins).1.zip labels).filter
                (fun p => decide (p.1 = g))).map (fun p => binarize01 p.2))
              ((((binarize nuisance nuisance_bins).1.zip proba).filter
                (fun p => decide (p.1 = g))).map Prod.snd))
    ∧ ((nuisance_metric_plot binarize metric_fn predictions labels nuisance
        base_level names nuisance_bins).lines.length = predictions.length)
    ∧ (∀ k, k < predictions.length →
        ((nuisance_metric_plot binarize metric_fn predictions labels nuisance
            base_level names nuisance_bins).lines.getD k ⟨[], [], none⟩).ys
          = modelMetrics metric_fn
              ((binarize nuisance nuisance_bins).2.length - 1)
              (binarize nuisance nuisance_bins).1 labels
              (predictions.getD k [])) := by
  refine ⟨binnedLabels_length _ _ _,
    fun g hg => binnedLabels_getD _ _ _ g hg,
    fun proba => binPartition_length _ _ _,
    fun proba g hg => binPartition_getD _ _ _ g hg,
    fun proba => modelMetrics_length _ _ _ _ _,
    ?_, ?_, ?_⟩
  · intro proba g hg
    rw [modelMetrics_getD _ _ _ _ _ g hg 0, binnedLabels_getD _ _ _ g hg,
      binPartition_getD _ _ _ g hg]
  · rw [nuisance_metric_plot_eq]
    show ((List.range (metricsOf binarize metric_fn predictions labels
        nuisance nuisance_bins).length).map _).length = _
    rw [List.length_map, List.length_range, metricsOf, List.length_map]
  · intro k hk
    rw [nuisance_metric_plot_eq]
    have hkM : k < (metricsOf binarize metric_fn predictions labels nuisance
        nuisance_bins).length := by
      rw [metricsOf, List.length_map]; exact hk
    have hkr : k < ((List.range (metricsOf binarize metric_fn predictions
        labels nuisance nuisance_bins).length).map (fun k =>
        ({ xs := midpoints (binarize nuisance nuisance_bins).2
           ys := (metricsOf binarize metric_fn predictions labels nuisance
               nuisance_bins).getD k []
           label := names.map (fun ns => ns.getD k "") } : MetricLine))).length := by
      rw [List.length_map, List.length_range]; exact hkM
    show (((List.range (metricsOf binarize metric_fn predictions labels
        nuisance nuisance_bins).length).map _).getD k
        (⟨[], [], none⟩ : MetricLine)).ys = _
    rw [List.getD_eq_getElem _ _ hkr, List.getElem_map, List.getElem_range]
    show (metricsOf binarize metric_fn predictions labels nuisance
        nuisance_bins).getD k [] = _
    rw [metricsOf, List.getD_eq_getElem _ _ (by rw [List.length_map]; exact hk),
      List.getElem_map, List.getD_eq_getElem _ _ hk]

/- ### Witnesses: each claim theorem applied at a concrete input -/

/-- Witness for C1: two samples, both inside the constructed bin ranges,
are both counted. -/
theorem C1_witness :
    histTotal (histogram2d [1 / 2, 0] (nuVals (.intV [0, 1]))
      (linspace 0 1 2) (nuEdges (.intV [0, 1]) 20)) = 2 := by
  have hnuv : nuVals (.intV [0, 1]) = [(0 : ℚ), 1] := by norm_num [nuVals]
  have hedges : nuEdges (.intV [0, 1]) 20 = [-(1 / 2), 1 / 2, 3 / 2] := by
    have h3 : ((zmaxD [0, 1] + 2).toNat) = 3 := by decide
    show (arangeZ (zmaxD [0, 1] + 2)).map (fun q => q - 1 / 2) = _
    simp only [arangeZ, h3]
    norm_num [List.range_succ]
  exact C1_histogram_preserves_samples [[1 / 2, 0]] (.intV [0, 1]) 20 2
    (le_refl 2)
    (by rw [hedges]; norm_num)
    (by
      rw [hnuv, hedges]
      intro y hy
      simp at hy
      rcases hy with h | h <;> subst h <;> norm_num [List.getD])
    [1 / 2, 0] (List.mem_cons_self _ _)
    (by intro x hx; simp at hx; rcases hx with h | h <;> subst h <;> norm_num)
    (by rw [hnuv]; rfl)

/-- Witness for C2: the {0,1,2}-valued integer nuisance vector. -/
theorem C2_witness :
    nuEdges (.intV [0, 1, 2]) 3 = nuEdges (.intV [0, 1, 2]) 7
    ∧ effectiveNuBins (.intV [0, 1, 2]) 3 = 3
    ∧ nuEdges (.intV [0, 1, 2]) 3 = [-(1 / 2), 1 / 2, 3 / 2, 5 / 2] := by
  have h := C2_integer_mode_override [0, 1, 2] 3 7 (List.cons_ne_nil _ _)
    (by decide)
  exact ⟨h.1, h.2.2.2.2.2.2, h.2.2.2.2.2.1⟩

/-- Witness for C3: three edges produce two prediction bins. -/
theorem C3_witness :
    (linspace 0 1 3).length = 3
    ∧ (midpoints (linspace 0 1 3)).length = 2
    ∧ (histogram2d [0] [0] (linspace 0 1 3) [-(1 / 2), 1 / 2]).length = 2 := by
  have h := C3_prediction_edges_off_by_one 3 (by norm_num)
  exact ⟨h.1, h.2.2.2.2.2.1, h.2.2.2.2.1 [0] [0] [-(1 / 2), 1 / 2]⟩

/-- Witness for C4: a wrongly sized vector is rejected, a correctly sized
one is reshaped. -/
theorem C4_witness :
    draw_response [0, 1] [0] [1 / 2] [] [] = none
    ∧ draw_response [0, 1] [0] [1 / 2, 3 / 4] [] [] ≠ none := by
  constructor
  · exact (C4_draw_response [0, 1] [0] [1 / 2] [] []).2 (by decide)
  · obtain ⟨M, h1, -, -, -, -⟩ :=
      (C4_draw_response [0, 1] [0] [1 / 2, 3 / 4] [] []).1 (by decide)
    rw [h1]
    simp

/-- Witness for C5: a 2-point data matrix at resolution 2 yields a 4-point
grid. -/
theorem C5_witness :
    (make_grid [(0, 0), (1, 2)] 2).2.2.length = 4
    ∧ (make_grid [(0, 0), (1, 2)] 2).1.length = 2 := by
  have h := C5_make_grid [(0, 0), (1, 2)] 2 (List.cons_ne_nil _ _) (le_refl 2)
  exact ⟨h.2.2.2.2.2.2.2.2.1, h.1⟩

/-- Witness for C6: a continuous nuisance vector spanning [0, 10]. -/
theorem C6_witness :
    (nuEdges (.floatV [0, 10]) 2).getD 0 0 = -(1 / 100)
    ∧ (nuEdges (.floatV [0, 10]) 2).getD 2 0 = 10 + 1 / 100 := by
  have h := C6_continuous_mode_edges [0, 10] 2 (List.cons_ne_nil _ _)
    (by norm_num)
  exact h.2.2.2.2 (by norm_num [qminD]) (by norm_num [qmaxD])

/-- Witness for C7: a one-model, one-nuisance-bin call; the single subplot
sits at row 0, column 0, plots histogram column 0, and is titled. -/
theorem C7_witness :
    (({ row := 0
        col := 0
        xs := midpoints (linspace 0 1 2)
        ys := histcol (histogram2d ([[(1 : ℚ) / 2]].getD 0 [])
            (nuVals (.intV [0])) (linspace 0 1 2) (nuEdges (.intV [0]) 20))
          (effectiveNuBins (.intV [0]) 20 - 0 - 1)
        title := if (0 : ℕ) = 0 then
            some (modelLabel none 0 ++ " (MI=" ++ "c" ++ ")")
          else none } : SubplotCmd)
      ∈ nuisance_prediction_hist (fun _ => (0 : ℚ)) (fun _ => "c")
          [[(1 : ℚ) / 2]] (.intV [0]) none 20 2)
    ∧ ((if (0 : ℕ) = 0 then
          some (modelLabel none 0 ++ " (MI=" ++ "c" ++ ")")
        else none).isSome = true ↔ (0 : ℕ) = 0) := by
  have h := C7_subplot_layout (fun _ => (0 : ℚ)) (fun _ => "c")
    [[(1 : ℚ) / 2]] (.intV [0]) none 20 2
  have hmem := h.1 0 (by norm_num) 0 (by decide)
  exact ⟨hmem, h.2 _ hmem⟩

/-- Witness for C8: a constant-0.7 metric over one bin and two models. -/
theorem C8_witness :
    (7 / 10 : ℚ) ≤ (nuisance_metric_plot (fun _ _ => ([0, 0], [0, 1]))
      (fun _ _ => 7 / 10) [[1 / 2], [1 / 4]] [0, 1] [0, 0] (1 / 2) none
      10).ylim.2 := by
  have h := C8_metric_plot_ylim (fun _ _ => ([0, 0], [0, 1]))
    (fun _ _ => 7 / 10) [[1 / 2], [1 / 4]] [0, 1] [0, 0] (1 / 2) none 10
    (List.cons_ne_nil _ _) (by decide)
    (by intro g hg; simp at hg; subst hg; simp)
  exact (h.2.2.2 rfl).2

/-- Witness for C9: one sample, one bin. -/
theorem C9_witness : (binnedLabels 1 [0] [(1 : ℚ)]).length = 1 := by
  have h := C9_metric_partition (fun _ _ => ([0], [0, 1])) (fun _ _ => 0)
    [[1 / 2]] [1] [0] (1 / 2) none 10
    (by intro g hg; simp at hg; subst hg; decide)
    (by decide)
    (by intro proba hp; simp at hp; subst hp; decide)
  exact h.1

/-- Witness for C10: a sample at nuisance −1 is dropped from the count. -/
theorem C10_witness :
    histTotal (histogram2d [1 / 2, 1 / 2] (nuVals (.intV [-1, 0]))
      (linspace 0 1 2) (nuEdges (.intV [-1, 0]) 3)) < 2 := by
  have h := C10_negative_values_dropped [-1, 0] [1 / 2, 1 / 2] 3 2 rfl
    ⟨-1, List.mem_cons_self _ _, by decide⟩ (by decide)
  exact h.2.2

end Plotting
